import Mathlib

/-!
# Headquarters placement of the map generator

A shallow embedding of `libs/s25main/mapGenerator/HeadQuarters.h`
(`FindHqPositions`, `PlaceHeadquarter`) and theorems about it.

Machine integers are natural numbers; the arithmetic the source performs on
`unsigned` is reduced modulo `2 ^ 32` wherever it can wrap.  Exceptions are
values of `Except`; the mutation of the map by `PlaceHeadquarter` is explicit
state passing (the map after the call is returned next to the outcome).
-/

namespace rttr.mapGenerator

/-! ## Data model -/

/-- Modelled from the spec: the grid coordinate `MapPoint` (declared outside this header),
a 2D position with coordinates of type `unsigned short`. -/
structure MapPoint where
  x : Nat
  y : Nat
deriving DecidableEq, Repr

/-- Modelled from the spec: the sentinel `MapPoint::Invalid()` meaning "no position", distinct
from every in-bounds coordinate (both coordinates are the largest `unsigned short`). -/
def MapPoint.Invalid : MapPoint := ⟨65535, 65535⟩

/-- Modelled from the spec: the validity flag `MapPoint::isValid()` of a grid coordinate: a point
is valid unless it is the sentinel. -/
def MapPoint.isValid (pt : MapPoint) : Bool := pt != MapPoint.Invalid

/-- Modelled from the spec: the grid size `MapExtent` (width `x`, height `y`). -/
structure MapExtent where
  x : Nat
  y : Nat
deriving DecidableEq, Repr

/-- Modelled from the spec: a scalar field `NodeMapBase<unsigned>`, read as `field[pt]`. -/
abbrev NodeMapBase := MapPoint → Nat

/-- Modelled from the spec: the part of `Map` (declared in `mapGenerator/Map.h`) used by this
header.  The texture map is seen only through the two per-coordinate queries of the source:
`isObstacle pt` is `textureMap.Any(pt, not buildable)` and `isMountain pt` is
`textureMap.Any(pt, IsMinableMountain)`.  `hqPositions` is the headquarters table, indexed by
player. -/
structure Map where
  size : MapExtent
  isObstacle : MapPoint → Bool
  isMountain : MapPoint → Bool
  hqPositions : List MapPoint

/-- Modelled from the spec: the Distance Transform Engine (declared outside this header), taken
as a parameter.  `DistancesTo seeds size` is the overload seeded with a set of coordinates and
`DistancesToWhere size predicate` the overload seeded with the cells satisfying a predicate. -/
structure Algorithms where
  DistancesTo : List MapPoint → MapExtent → NodeMapBase
  DistancesToWhere : MapExtent → (MapPoint → Bool) → NodeMapBase

/-- Number of values of the C++ type `unsigned` (32 bits). -/
def UINT_SIZE : Nat := 4294967296

/-- Modelled from the spec: `helpers::clamp(value, lo, hi)`, the value forced into `[lo, hi]`. -/
def clamp (value lo hi : Nat) : Nat :=
  if value < lo then lo else if hi < value then hi else value

/-- Modelled from the spec: `GetMaximum(values, area)`, the largest value of the field observed
on the cells of a (non-empty) area. -/
def GetMaximum (values : NodeMapBase) : List MapPoint → Nat
  | [] => 0
  | pt :: rest => rest.foldl (fun m q => max m (values q)) (values pt)

/-- Modelled from the spec: `GetMinimum(values, area)`, the smallest value of the field observed
on the cells of a (non-empty) area. -/
def GetMinimum (values : NodeMapBase) : List MapPoint → Nat
  | [] => 0
  | pt :: rest => rest.foldl (fun m q => min m (values q)) (values pt)

/-- Insertion of one element in front of the first element it is better than. -/
def orderedInsert {α : Type} (comp : α → α → Bool) (a : α) : List α → List α
  | [] => [a]
  | b :: l => if comp a b then a :: b :: l else b :: orderedInsert comp a l

/-- Model of `std::sort(first, last, comp)`: a rearrangement of the range in which no element is
preceded by one it is better than.  The order of equivalent elements is unspecified in C++; the
theorems below use only that the result is such a rearrangement. -/
def stdSort {α : Type} (comp : α → α → Bool) : List α → List α
  | [] => []
  | a :: l => orderedInsert comp a (stdSort comp l)

/-! ## FindHqPositions -/

/-- Failure outcomes: the `std::runtime_error` thrown by the source, and the exhaustion of the
iteration budget of the embedded `while` loop (shown below never to happen). -/
inductive Failure where
  | runtime_error (what : String)
  | out_of_fuel
deriving DecidableEq, Repr

section Locals

variable (alg : Algorithms) (map : Map) (area : List MapPoint) (playerDistanceToMountains : Nat)

/-- The valid entries of the headquarters table (`std::copy_if` with `isValid`). -/
def hqs : List MapPoint := map.hqPositions.filter MapPoint.isValid

/-- Source line 71: `potentialHqQuality = DistancesTo(hqs, map.size)`. -/
def potentialHqQuality : NodeMapBase := alg.DistancesTo (hqs map) map.size

/-- Source line 72: `obstacleDistance = DistancesTo(map.size, isObstacle)`. -/
def obstacleDistance : NodeMapBase := alg.DistancesToWhere map.size map.isObstacle

/-- Source line 73: `minObstacleDistance = clamp(GetMaximum(obstacleDistance, area), 2u, 4u)`. -/
def minObstacleDistance : Nat := clamp (GetMaximum (obstacleDistance alg map) area) 2 4

/-- Source line 74: `mountainDistance = DistancesTo(map.size, isMountain)`. -/
def mountainDistance : NodeMapBase := alg.DistancesToWhere map.size map.isMountain

/-- Source line 75: `minMountainDistance = max(GetMinimum(mountainDistance, area), desired)`. -/
def minMountainDistance : Nat :=
  max (GetMinimum (mountainDistance alg map) area) playerDistanceToMountains

/-- Source line 76: `maxMountainDistance = static_cast<unsigned>(map.size.x + map.size.y)`. -/
def maxMountainDistance : Nat := (map.size.x + map.size.y) % UINT_SIZE

/-- Source line 77: `noMountainsAvailable = minMountainDistance > maxMountainDistance`. -/
def noMountainsAvailable : Bool :=
  decide (minMountainDistance alg map area playerDistanceToMountains > maxMountainDistance map)

/-- Source line 85: `mountainDistance[pt] < allowed + 5 && mountainDistance[pt] > allowed - 5`,
both sums computed on 32-bit unsigned integers. -/
def mountainsInReach (allowedMountainDistance : Nat) (pt : MapPoint) : Bool :=
  decide (mountainDistance alg map pt < (allowedMountainDistance + 5) % UINT_SIZE) &&
  decide (mountainDistance alg map pt > (allowedMountainDistance + UINT_SIZE - 5) % UINT_SIZE)

/-- Source line 100: the obstacle rule `obstacleDistance[pt] >= minObstacleDistance`. -/
def obstacleRule (pt : MapPoint) : Bool :=
  decide (obstacleDistance alg map pt ≥ minObstacleDistance alg map area)

/-- Source line 87: the condition under which a scan of the relaxation loop accepts a cell. -/
def scanAccepts (allowedMountainDistance : Nat) (pt : MapPoint) : Bool :=
  obstacleRule alg map area pt &&
    (noMountainsAvailable alg map area playerDistanceToMountains ||
      mountainsInReach alg map allowedMountainDistance pt)

/-- Source lines 81-107: the relaxation loop `while(positions.empty())`, with an iteration budget.
Each `for` loop over the area appends the accepted cells in area order. -/
def relaxLoop : Nat → Nat → List MapPoint → Option (List MapPoint)
  | 0, _, _ => none
  | fuel + 1, allowedMountainDistance, positions =>
    if positions.isEmpty then
      let positions := positions ++
        area.filter (scanAccepts alg map area playerDistanceToMountains allowedMountainDistance)
      if allowedMountainDistance < maxMountainDistance map then
        relaxLoop fuel ((allowedMountainDistance + 1) % UINT_SIZE) positions
      else
        some (positions ++ area.filter (obstacleRule alg map area))
    else
      some positions

/-- Source lines 109-111: `isBetter(p1, p2)`, a strictly larger quality. -/
def isBetter (p1 p2 : MapPoint) : Bool :=
  decide (potentialHqQuality alg map p1 > potentialHqQuality alg map p2)

/-- Source lines 52-114: `FindHqPositions(map, area, playerDistanceToMountains)`. -/
def FindHqPositions : Except Failure (List MapPoint) :=
  if area.isEmpty then
    .error (.runtime_error "Could not find any valid HQ position!")
  else
    match relaxLoop alg map area playerDistanceToMountains
        (maxMountainDistance map - minMountainDistance alg map area playerDistanceToMountains + 2)
        (minMountainDistance alg map area playerDistanceToMountains) [] with
    | none => .error .out_of_fuel
    | some positions => .ok (stdSort (isBetter alg map) positions)

/-- Source lines 127-135: `PlaceHeadquarter(map, index, area, playerDistanceToMountains)`.  The
result is the outcome of the call together with the map as the call leaves it.  The source
writes `map.hqPositions[index]`, which is defined only for an index inside the table. -/
def PlaceHeadquarter (index : Nat) : Except Failure Unit × Map :=
  match FindHqPositions alg map area playerDistanceToMountains with
  | .error e => (.error e, map)
  | .ok [] => (.error (.runtime_error "Could not find any valid HQ position!"), map)
  | .ok (front :: _) => (.ok (), { map with hqPositions := map.hqPositions.set index front })

end Locals

/-! ## A concrete distance engine for evaluation -/

/-- Steps between two cells of a grid whose cells are joined to their four axis neighbours. -/
def gridSteps (a b : MapPoint) : Nat :=
  (if a.x ≤ b.x then b.x - a.x else a.x - b.x) + (if a.y ≤ b.y then b.y - a.y else a.y - b.y)

/-- Modelled from the spec: the "unreachable" sentinel of a distance field, a value that exceeds
width+height. -/
def unreachable (size : MapExtent) : Nat := size.x + size.y + 1

/-- Modelled from the spec: distance to the nearest seed, the sentinel when there is no seed. -/
def nearestSeed (seeds : List MapPoint) (size : MapExtent) : NodeMapBase :=
  fun pt => seeds.foldl (fun d s => min d (gridSteps s pt)) (unreachable size)

/-- All points of a grid, row by row. -/
def allPoints (size : MapExtent) : List MapPoint :=
  (List.range size.y).flatMap (fun y => (List.range size.x).map (fun x => (⟨x, y⟩ : MapPoint)))

/-- Modelled from the spec: a Distance Transform Engine on the four-neighbour grid, by brute
force over the seeds. -/
def gridEngine : Algorithms where
  DistancesTo := nearestSeed
  DistancesToWhere := fun size predicate => nearestSeed ((allPoints size).filter predicate) size

/-! ## Concrete maps for evaluation -/

/-- An 8 x 8 map with one obstacle in a corner, one mountain in the opposite corner and two
players, the first of which holds a headquarters. -/
def cornerMap : Map where
  size := ⟨8, 8⟩
  isObstacle := fun p => p.x == 0 && p.y == 0
  isMountain := fun p => p.x == 7 && p.y == 7
  hqPositions := [⟨2, 2⟩, MapPoint.Invalid]


/-- A 4 x 4 map with one obstacle in a corner, one mountain in the opposite corner and four
players, none of which holds a headquarters yet. -/
def smallMap : Map where
  size := ⟨4, 4⟩
  isObstacle := fun p => p.x == 0 && p.y == 0
  isMountain := fun p => p.x == 3 && p.y == 3
  hqPositions := [MapPoint.Invalid, MapPoint.Invalid, MapPoint.Invalid, MapPoint.Invalid]

/-- An 8 x 8 map with one obstacle in a corner and no mountain, for two players without
headquarters. -/
def plainMap : Map where
  size := ⟨8, 8⟩
  isObstacle := fun p => p.x == 0 && p.y == 0
  isMountain := fun _ => false
  hqPositions := [MapPoint.Invalid, MapPoint.Invalid]

/-! ## Predicates on the headquarters table -/

/-- No two players hold the same valid coordinate. -/
def NoDuplicateHq (table : List MapPoint) : Prop := (table.filter MapPoint.isValid).Nodup

instance (table : List MapPoint) : Decidable (NoDuplicateHq table) := by
  unfold NoDuplicateHq; infer_instance

/-! ## The per-player placement pass -/

/-- Modelled from the spec: the per-player loop of the Placement Orchestrator
(`PlaceHeadquarters` is only declared in this header).  The players are placed one after the
other, each by `PlaceHeadquarter` on the map the previous call left, with the current table as
the seed of the quality field; the first failure ends the pass. -/
def placePlayers (alg : Algorithms) (area : List MapPoint) (playerDistanceToMountains : Nat) :
    Map → List Nat → Except Failure Unit × Map
  | map, [] => (.ok (), map)
  | map, index :: rest =>
    match PlaceHeadquarter alg map area playerDistanceToMountains index with
    | (.ok _, map') => placePlayers alg area playerDistanceToMountains map' rest
    | (.error e, map') => (.error e, map')

/-- The state of the table after the first `k` players are placed. -/
def PlacedUpTo (area : List MapPoint) (k : Nat) (table : List MapPoint) : Prop :=
  (table.take k).Nodup ∧ (∀ p ∈ table.take k, p.isValid = true ∧ p ∈ area) ∧
    (∀ p ∈ table.drop k, p = MapPoint.Invalid)

/-- A 4 x 4 map with an obstacle in one corner and a mountain in the neighbouring corner, for
two players without headquarters. -/
def ridgeMap : Map where
  size := ⟨4, 4⟩
  isObstacle := fun p => p.x == 3 && p.y == 0
  isMountain := fun p => p.x == 3 && p.y == 3
  hqPositions := [MapPoint.Invalid, MapPoint.Invalid]

/-! ## Counting the scans of the relaxation loop -/

/-- Source lines 81-107 once more: the relaxation loop of `relaxLoop`, which in addition counts
the scans of the area (the `for` loop at lines 83-91, run once per iteration of the `while`
loop). -/
def relaxLoopScans (alg : Algorithms) (map : Map) (area : List MapPoint)
    (playerDistanceToMountains : Nat) :
    Nat → Nat → List MapPoint → Nat → Option (List MapPoint × Nat)
  | 0, _, _, _ => none
  | fuel + 1, allowedMountainDistance, positions, scans =>
    if positions.isEmpty then
      let positions := positions ++
        area.filter (scanAccepts alg map area playerDistanceToMountains allowedMountainDistance)
      if allowedMountainDistance < maxMountainDistance map then
        relaxLoopScans alg map area playerDistanceToMountains fuel
          ((allowedMountainDistance + 1) % UINT_SIZE) positions (scans + 1)
      else
        some (positions ++ area.filter (obstacleRule alg map area), scans + 1)
    else
      some (positions, scans)

/-! ## The mountain band as the specification words it -/

theorem orderedInsert_perm {α : Type} (comp : α → α → Bool) (a : α) (l : List α) :
    (orderedInsert comp a l).Perm (a :: l) := by
  induction l with
  | nil => exact List.Perm.refl _
  | cons b l ih =>
    unfold orderedInsert
    split
    · exact List.Perm.refl _
    · exact (List.Perm.cons b ih).trans (List.Perm.swap a b l)

theorem stdSort_perm {α : Type} (comp : α → α → Bool) (l : List α) :
    (stdSort comp l).Perm l := by
  induction l with
  | nil => exact List.Perm.refl _
  | cons a l ih =>
    unfold stdSort
    exact (orderedInsert_perm comp a _).trans (List.Perm.cons a ih)

theorem orderedInsert_sorted {α : Type} (key : α → Nat) (a : α) (l : List α)
    (h : l.Pairwise (fun p q => key q ≤ key p)) :
    (orderedInsert (fun p q => decide (key p > key q)) a l).Pairwise
      (fun p q => key q ≤ key p) := by
  induction l with
  | nil => simp [orderedInsert]
  | cons b l ih =>
    unfold orderedInsert
    rw [List.pairwise_cons] at h
    split
    · rename_i hab
      have hab : key b < key a := by simpa using hab
      refine List.pairwise_cons.mpr ⟨?_, List.pairwise_cons.mpr h⟩
      intro c hc
      rcases List.mem_cons.mp hc with rfl | hc
      · omega
      · have := h.1 c hc
        omega
    · rename_i hab
      have hab : key a ≤ key b := by simpa using hab
      refine List.pairwise_cons.mpr ⟨?_, ih h.2⟩
      intro c hc
      have hc := (orderedInsert_perm _ a l).subset hc
      rcases List.mem_cons.mp hc with rfl | hc
      · exact hab
      · exact h.1 c hc

theorem stdSort_sorted {α : Type} (key : α → Nat) (l : List α) :
    (stdSort (fun p q => decide (key p > key q)) l).Pairwise (fun p q => key q ≤ key p) := by
  induction l with
  | nil => simp [stdSort]
  | cons a l ih =>
    unfold stdSort
    exact orderedInsert_sorted key a _ ih

/-! ## Facts about the relaxation loop -/

section LoopFacts

variable (alg : Algorithms) (map : Map) (area : List MapPoint) (playerDistanceToMountains : Nat)

theorem maxMountainDistance_lt (map : Map) : maxMountainDistance map < UINT_SIZE :=
  Nat.mod_lt _ (by decide)

theorem relaxLoop_of_ne_nil (fuel allowed : Nat) (positions : List MapPoint)
    (h : positions ≠ []) :
    relaxLoop alg map area playerDistanceToMountains (fuel + 1) allowed positions
      = some positions := by
  cases positions with
  | nil => exact absurd rfl h
  | cons p ps => simp [relaxLoop]

/-- The value of the relaxation loop started at `allowed` with no position yet: either the first
scan below the maximum that accepts a cell, or the scan at the end of the ladder followed by the
pass that ignores the mountain band. -/
theorem relaxLoop_spec (n : Nat) : ∀ allowed : Nat, maxMountainDistance map - allowed = n →
    ∃ r, relaxLoop alg map area playerDistanceToMountains (n + 2) allowed [] = some r ∧
      ((∃ d, allowed ≤ d ∧ d < maxMountainDistance map ∧
          (∀ k, allowed ≤ k → k < d →
            area.filter (scanAccepts alg map area playerDistanceToMountains k) = []) ∧
          area.filter (scanAccepts alg map area playerDistanceToMountains d) ≠ [] ∧
          r = area.filter (scanAccepts alg map area playerDistanceToMountains d)) ∨
       ((∀ k, allowed ≤ k → k < maxMountainDistance map →
            area.filter (scanAccepts alg map area playerDistanceToMountains k) = []) ∧
          r = area.filter (scanAccepts alg map area playerDistanceToMountains
                (max allowed (maxMountainDistance map)))
              ++ area.filter (obstacleRule alg map area))) := by
  induction n with
  | zero =>
    intro allowed hn
    have hge : ¬ allowed < maxMountainDistance map := by omega
    refine ⟨_, ?_, Or.inr ⟨?_, rfl⟩⟩
    · have hmax : max allowed (maxMountainDistance map) = allowed := by
        rw [Nat.max_def]; split <;> omega
      simp [relaxLoop, hge, hmax]
    · intro k h1 h2; omega
  | succ n ih =>
    intro allowed hn
    have hlt : allowed < maxMountainDistance map := by omega
    have hU := maxMountainDistance_lt map
    have hmod : (allowed + 1) % UINT_SIZE = allowed + 1 := Nat.mod_eq_of_lt (by omega)
    by_cases hs : area.filter (scanAccepts alg map area playerDistanceToMountains allowed) = []
    · obtain ⟨r, hr, hcase⟩ := ih (allowed + 1) (by omega)
      refine ⟨r, ?_, ?_⟩
      · rw [relaxLoop]
        simp only [List.isEmpty_nil, if_true, List.nil_append, hlt, hmod, hs]
        exact hr
      · rcases hcase with ⟨d, h1, h2, h3, h4, h5⟩ | ⟨h1, h2⟩
        · refine Or.inl ⟨d, by omega, h2, ?_, h4, h5⟩
          intro k hk1 hk2
          by_cases hk : k = allowed
          · rw [hk]; exact hs
          · exact h3 k (by omega) hk2
        · refine Or.inr ⟨?_, ?_⟩
          · intro k hk1 hk2
            by_cases hk : k = allowed
            · rw [hk]; exact hs
            · exact h1 k (by omega) hk2
          · have e1 : max (allowed + 1) (maxMountainDistance map) = maxMountainDistance map := by
              rw [Nat.max_def]; split <;> omega
            have e2 : max allowed (maxMountainDistance map) = maxMountainDistance map := by
              rw [Nat.max_def]; split <;> omega
            rw [e2]; rw [e1] at h2; exact h2
    · refine ⟨_, ?_, Or.inl ⟨allowed, le_refl _, hlt, ?_, hs, rfl⟩⟩
      · rw [relaxLoop]
        simp only [List.isEmpty_nil, if_true, List.nil_append, hlt, hmod]
        exact relaxLoop_of_ne_nil alg map area playerDistanceToMountains _ _ _ hs
      · intro k h1 h2; omega

end LoopFacts


section SelectorFacts

variable (alg : Algorithms) (map : Map) (area : List MapPoint) (playerDistanceToMountains : Nat)

/-- For a non-empty area the selector returns the sorted result of the relaxation loop, which is
either the first successful scan below the maximum or the last scan followed by the fallback. -/
theorem FindHqPositions_eq (h : area ≠ []) :
    ∃ r, FindHqPositions alg map area playerDistanceToMountains
        = .ok (stdSort (isBetter alg map) r) ∧
      ((∃ d, minMountainDistance alg map area playerDistanceToMountains ≤ d ∧
          d < maxMountainDistance map ∧
          (∀ k, minMountainDistance alg map area playerDistanceToMountains ≤ k → k < d →
            area.filter (scanAccepts alg map area playerDistanceToMountains k) = []) ∧
          area.filter (scanAccepts alg map area playerDistanceToMountains d) ≠ [] ∧
          r = area.filter (scanAccepts alg map area playerDistanceToMountains d)) ∨
       ((∀ k, minMountainDistance alg map area playerDistanceToMountains ≤ k →
            k < maxMountainDistance map →
            area.filter (scanAccepts alg map area playerDistanceToMountains k) = []) ∧
          r = area.filter (scanAccepts alg map area playerDistanceToMountains
                (max (minMountainDistance alg map area playerDistanceToMountains)
                  (maxMountainDistance map)))
              ++ area.filter (obstacleRule alg map area))) := by
  obtain ⟨r, hr, hcase⟩ := relaxLoop_spec alg map area playerDistanceToMountains
    (maxMountainDistance map - minMountainDistance alg map area playerDistanceToMountains)
    (minMountainDistance alg map area playerDistanceToMountains) rfl
  refine ⟨r, ?_, hcase⟩
  have hne : area.isEmpty = false := by
    cases area with
    | nil => exact absurd rfl h
    | cons p ps => rfl
  unfold FindHqPositions
  rw [hne, hr]
  rfl

theorem scanAccepts_obstacleRule (allowed : Nat) (pt : MapPoint)
    (h : scanAccepts alg map area playerDistanceToMountains allowed pt = true) :
    obstacleRule alg map area pt = true := by
  unfold scanAccepts at h
  exact (Bool.and_eq_true _ _ ▸ h).1

/-- Every cell the relaxation loop collects lies in the area and meets the obstacle rule. -/
theorem FindHqPositions_mem (positions : List MapPoint)
    (h : FindHqPositions alg map area playerDistanceToMountains = .ok positions)
    (pt : MapPoint) (hpt : pt ∈ positions) :
    pt ∈ area ∧ obstacleRule alg map area pt = true := by
  have hne : area ≠ [] := by
    intro h0
    rw [h0] at h
    simp [FindHqPositions] at h
  obtain ⟨r, hr, hcase⟩ := FindHqPositions_eq alg map area playerDistanceToMountains hne
  rw [hr] at h
  injection h with h
  rw [← h] at hpt
  have hpt := (stdSort_perm _ r).subset hpt
  rcases hcase with ⟨d, _, _, _, _, h5⟩ | ⟨_, h2⟩
  · rw [h5] at hpt
    have := List.mem_filter.mp hpt
    exact ⟨this.1, scanAccepts_obstacleRule alg map area playerDistanceToMountains d pt this.2⟩
  · rw [h2] at hpt
    rcases List.mem_append.mp hpt with hp | hp
    · have := List.mem_filter.mp hp
      exact ⟨this.1, scanAccepts_obstacleRule alg map area playerDistanceToMountains _ pt this.2⟩
    · exact List.mem_filter.mp hp

theorem two_le_clamp (value : Nat) : 2 ≤ clamp value 2 4 := by
  unfold clamp
  split
  · exact le_refl _
  · split <;> omega

end SelectorFacts

section SelectorOrder

variable (alg : Algorithms) (map : Map) (area : List MapPoint) (playerDistanceToMountains : Nat)

/-- The result of the selector for a non-empty area is ordered by decreasing quality. -/
theorem FindHqPositions_sorted_by_quality_aux (h : area ≠ []) :
    ∃ positions, FindHqPositions alg map area playerDistanceToMountains = .ok positions ∧
      positions.Pairwise
        (fun p q => potentialHqQuality alg map q ≤ potentialHqQuality alg map p) := by
  obtain ⟨r, hr, _⟩ := FindHqPositions_eq alg map area playerDistanceToMountains h
  exact ⟨_, hr, stdSort_sorted (potentialHqQuality alg map) r⟩

end SelectorOrder

/-! ## Facts about the headquarters table -/

theorem nodup_filter_set (P : MapPoint → Bool) (a : MapPoint) :
    ∀ (table : List MapPoint) (i : Nat), (table.filter P).Nodup → a ∉ table.filter P →
      ((table.set i a).filter P).Nodup := by
  intro table
  induction table with
  | nil => intro i _ _; simp
  | cons b t ih =>
    intro i hnd ha
    have hsub : (t.filter P).Sublist ((b :: t).filter P) :=
      List.Sublist.filter P (List.sublist_cons_self b t)
    have hndt : (t.filter P).Nodup := hnd.sublist hsub
    have hat : a ∉ t.filter P := fun hmem => ha (hsub.subset hmem)
    cases i with
    | zero =>
      rw [List.set_cons_zero, List.filter_cons]
      split
      · exact List.nodup_cons.mpr ⟨hat, hndt⟩
      · exact hndt
    | succ i =>
      rw [List.set_cons_succ, List.filter_cons]
      split
      · rename_i hPb
        rw [List.filter_cons, if_pos hPb] at hnd ha
        refine List.nodup_cons.mpr ⟨?_, ih i hndt hat⟩
        intro hmem
        have hb := List.mem_filter.mp hmem
        rcases List.mem_or_eq_of_mem_set hb.1 with hbt | hba
        · exact (List.nodup_cons.mp hnd).1 (List.mem_filter.mpr ⟨hbt, hb.2⟩)
        · exact ha (hba ▸ List.mem_cons_self _ _)
      · exact ih i hndt hat

/-! ## Facts about the per-player placement pass -/

section PassFacts

variable (alg : Algorithms) (map : Map) (area : List MapPoint) (playerDistanceToMountains : Nat)

/-- The relaxation loop reads the map only through its size and its terrain queries. -/
theorem relaxLoop_congr (table : List MapPoint) : ∀ (fuel allowed : Nat) (positions : List MapPoint),
    relaxLoop alg { map with hqPositions := table } area playerDistanceToMountains fuel allowed
        positions
      = relaxLoop alg map area playerDistanceToMountains fuel allowed positions := by
  intro fuel
  induction fuel with
  | zero => intro allowed positions; rfl
  | succ fuel ih =>
    intro allowed positions
    rw [relaxLoop, relaxLoop]
    by_cases hp : positions.isEmpty = true
    · rw [if_pos hp, if_pos hp]
      by_cases hlt : allowed < maxMountainDistance map
      · have hlt2 : allowed < maxMountainDistance { map with hqPositions := table } := hlt
        rw [if_pos hlt, if_pos hlt2]
        exact ih _ _
      · have hlt2 : ¬ allowed < maxMountainDistance { map with hqPositions := table } := hlt
        rw [if_neg hlt, if_neg hlt2]
        rfl
    · rw [if_neg hp, if_neg hp]

/-- The cells the selector returns do not depend on the headquarters table: only their order
does. -/
theorem FindHqPositions_candidates (h : area ≠ []) :
    ∃ r, ∀ table : List MapPoint,
      FindHqPositions alg { map with hqPositions := table } area playerDistanceToMountains
        = .ok (stdSort (isBetter alg { map with hqPositions := table }) r) := by
  obtain ⟨r, hr, _⟩ := relaxLoop_spec alg map area playerDistanceToMountains
    (maxMountainDistance map - minMountainDistance alg map area playerDistanceToMountains)
    (minMountainDistance alg map area playerDistanceToMountains) rfl
  refine ⟨r, ?_⟩
  intro table
  have hne : area.isEmpty = false := by
    cases area with
    | nil => exact absurd rfl h
    | cons p ps => rfl
  have hloop := relaxLoop_congr alg map area playerDistanceToMountains table
    (maxMountainDistance map - minMountainDistance alg map area playerDistanceToMountains + 2)
    (minMountainDistance alg map area playerDistanceToMountains) []
  rw [hr] at hloop
  unfold FindHqPositions
  rw [hne]
  have hloop2 : relaxLoop alg { map with hqPositions := table } area playerDistanceToMountains
      (maxMountainDistance { map with hqPositions := table }
        - minMountainDistance alg { map with hqPositions := table } area
            playerDistanceToMountains + 2)
      (minMountainDistance alg { map with hqPositions := table } area playerDistanceToMountains)
      [] = some r := hloop
  rw [hloop2]
  rfl

theorem PlacedUpTo_hqs (k : Nat) (table : List MapPoint) (h : PlacedUpTo area k table) :
    table.filter MapPoint.isValid = table.take k := by
  obtain ⟨_, h2, h3⟩ := h
  conv_lhs => rw [← List.take_append_drop k table]
  rw [List.filter_append]
  have e1 : (table.take k).filter MapPoint.isValid = table.take k :=
    List.filter_eq_self.mpr (fun p hp => (h2 p hp).1)
  have e2 : (table.drop k).filter MapPoint.isValid = [] := by
    rw [List.filter_eq_nil_iff]
    intro p hp
    rw [h3 p hp]
    decide
  rw [e1, e2, List.append_nil]

theorem set_eq_append (table : List MapPoint) (k : Nat) (a : MapPoint) (hk : k < table.length) :
    table.set k a = (table.take k ++ [a]) ++ table.drop (k + 1) := by
  rw [List.set_eq_take_append_cons_drop, if_pos hk]
  simp

theorem PlacedUpTo_set (k : Nat) (table : List MapPoint) (a : MapPoint)
    (hk : k < table.length) (h : PlacedUpTo area k table)
    (hnew : a ∉ table.take k) (hvalid : a.isValid = true) (harea : a ∈ area) :
    PlacedUpTo area (k + 1) (table.set k a) := by
  obtain ⟨h1, h2, h3⟩ := h
  have hlen : (table.take k ++ [a]).length = k + 1 := by
    rw [List.length_append, List.length_take, Nat.min_eq_left (le_of_lt hk)]
    rfl
  have htake : (table.set k a).take (k + 1) = table.take k ++ [a] := by
    rw [set_eq_append table k a hk]
    exact List.take_left' hlen
  have hdrop : (table.set k a).drop (k + 1) = table.drop (k + 1) := by
    rw [set_eq_append table k a hk]
    exact List.drop_left' hlen
  refine ⟨?_, ?_, ?_⟩
  · rw [htake]
    refine List.nodup_append.mpr ⟨h1, List.nodup_singleton a, ?_⟩
    intro x hx1 hx2
    rw [List.mem_singleton] at hx2
    exact hnew (hx2 ▸ hx1)
  · rw [htake]
    intro p hp
    rcases List.mem_append.mp hp with hp | hp
    · exact h2 p hp
    · rw [List.mem_singleton] at hp
      rw [hp]
      exact ⟨hvalid, harea⟩
  · rw [hdrop]
    intro p hp
    exact h3 p (List.mem_of_mem_drop (by rwa [← List.drop_drop] at hp))

end PassFacts

section PassInduction

variable (alg : Algorithms) (map : Map) (area : List MapPoint) (playerDistanceToMountains : Nat)

/-- One placement on a table whose first `k` entries are placed: when the selector offers more
than `k` distinct cells, player `k` receives a cell none of the first `k` players holds. -/
theorem PlaceHeadquarter_step (r cs : List MapPoint)
    (hengine : ∀ seeds p, alg.DistancesTo seeds map.size p = 0 ↔ p ∈ seeds)
    (hvalid : ∀ p ∈ area, p.isValid = true)
    (hr : ∀ table : List MapPoint,
      FindHqPositions alg { map with hqPositions := table } area playerDistanceToMountains
        = .ok (stdSort (isBetter alg { map with hqPositions := table }) r))
    (hrarea : ∀ p ∈ r, p ∈ area)
    (hnd : cs.Nodup) (hcs : ∀ c ∈ cs, c ∈ r)
    (k : Nat) (table : List MapPoint) (hk : k < cs.length) (hkl : k < table.length)
    (hinv : PlacedUpTo area k table) :
    ∃ front, PlaceHeadquarter alg { map with hqPositions := table } area
        playerDistanceToMountains k
        = (.ok (), { map with hqPositions := table.set k front }) ∧
      PlacedUpTo area (k + 1) (table.set k front) := by
  have hseeds : hqs { map with hqPositions := table } = table.take k :=
    PlacedUpTo_hqs area k table hinv
  -- a candidate that no player holds yet
  have hfree : ∃ c ∈ cs, c ∉ table.take k := by
    by_contra hall
    have hsub : cs ⊆ table.take k := by
      intro c hc
      by_contra hnot
      exact hall ⟨c, hc, hnot⟩
    have hle := (List.subperm_of_subset hnd hsub).length_le
    rw [List.length_take] at hle
    have := Nat.min_le_left k table.length
    omega
  obtain ⟨c, hc, hcfree⟩ := hfree
  have hquality : ∀ p, potentialHqQuality alg { map with hqPositions := table } p = 0
      ↔ p ∈ table.take k := by
    intro p
    unfold potentialHqQuality
    rw [hseeds]
    exact hengine _ p
  have hcpos : 0 < potentialHqQuality alg { map with hqPositions := table } c := by
    rcases Nat.eq_zero_or_pos (potentialHqQuality alg { map with hqPositions := table } c)
      with h0 | h0
    · exact absurd ((hquality c).mp h0) hcfree
    · exact h0
  have hsorted := stdSort_sorted (potentialHqQuality alg { map with hqPositions := table }) r
  have hperm := stdSort_perm (isBetter alg { map with hqPositions := table }) r
  have hcin : c ∈ stdSort (isBetter alg { map with hqPositions := table }) r :=
    hperm.symm.subset (hcs c hc)
  have hfind := hr table
  cases hS : stdSort (isBetter alg { map with hqPositions := table }) r with
  | nil => rw [hS] at hcin; exact absurd hcin (List.not_mem_nil _)
  | cons front rest =>
    rw [hS] at hfind hcin hperm
    have hsorted2 : (front :: rest).Pairwise
        (fun p q => potentialHqQuality alg { map with hqPositions := table } q
          ≤ potentialHqQuality alg { map with hqPositions := table } p) := by
      rw [← hS]; exact hsorted
    have hfrontpos : 0 < potentialHqQuality alg { map with hqPositions := table } front := by
      rcases List.mem_cons.mp hcin with rfl | hcin
      · exact hcpos
      · exact lt_of_lt_of_le hcpos ((List.pairwise_cons.mp hsorted2).1 c hcin)
    have hfrontnew : front ∉ table.take k := by
      intro hmem
      have := (hquality front).mpr hmem
      omega
    have hfrontarea : front ∈ area := hrarea front (hperm.subset (List.mem_cons_self _ _))
    refine ⟨front, ?_, PlacedUpTo_set area k table front hkl hinv hfrontnew
      (hvalid front hfrontarea) hfrontarea⟩
    unfold PlaceHeadquarter
    rw [hfind]

/-- The pass over the players `k, k+1, ..., k+n-1` on a table whose first `k` entries are
placed. -/
theorem placePlayers_range (r cs : List MapPoint)
    (hengine : ∀ seeds p, alg.DistancesTo seeds map.size p = 0 ↔ p ∈ seeds)
    (hvalid : ∀ p ∈ area, p.isValid = true)
    (hr : ∀ table : List MapPoint,
      FindHqPositions alg { map with hqPositions := table } area playerDistanceToMountains
        = .ok (stdSort (isBetter alg { map with hqPositions := table }) r))
    (hrarea : ∀ p ∈ r, p ∈ area)
    (hnd : cs.Nodup) (hcs : ∀ c ∈ cs, c ∈ r) :
    ∀ (n k : Nat) (table : List MapPoint), k + n ≤ cs.length → k + n ≤ table.length →
      PlacedUpTo area k table →
      ∃ table', placePlayers alg area playerDistanceToMountains
          { map with hqPositions := table } (List.range' k n)
          = (.ok (), { map with hqPositions := table' }) ∧
        table'.length = table.length ∧ PlacedUpTo area (k + n) table' := by
  intro n
  induction n with
  | zero =>
    intro k table _ _ hinv
    exact ⟨table, rfl, rfl, hinv⟩
  | succ n ih =>
    intro k table h1 h2 hinv
    obtain ⟨front, hplace, hinv2⟩ := PlaceHeadquarter_step alg map area
      playerDistanceToMountains r cs hengine hvalid hr hrarea hnd hcs k table
      (by omega) (by omega) hinv
    obtain ⟨table', hrest, hlen3, hinv3⟩ := ih (k + 1) (table.set k front) (by omega)
      (by rw [List.length_set]; omega) hinv2
    have hidx : k + 1 + n = k + (n + 1) := by omega
    refine ⟨table', ?_, by rw [hlen3, List.length_set], hidx ▸ hinv3⟩
    rw [List.range'_succ, placePlayers, hplace]
    exact hrest

end PassInduction

/-! ## Facts about the concrete distance engine -/

theorem gridSteps_eq_zero (a b : MapPoint) : gridSteps a b = 0 ↔ a = b := by
  unfold gridSteps
  constructor
  · intro h
    cases a with
    | mk ax ay =>
      cases b with
      | mk bx b_y =>
        simp only [MapPoint.mk.injEq]
        simp only at h
        split at h <;> split at h <;> omega
  · intro h
    rw [h]
    simp

theorem foldl_min_eq_zero (f : MapPoint → Nat) : ∀ (seeds : List MapPoint) (init : Nat),
    seeds.foldl (fun d s => min d (f s)) init = 0 ↔ init = 0 ∨ ∃ s ∈ seeds, f s = 0 := by
  intro seeds
  induction seeds with
  | nil => intro init; simp
  | cons s seeds ih =>
    intro init
    rw [List.foldl_cons, ih]
    constructor
    · rintro (h | ⟨t, ht, hft⟩)
      · rcases Nat.min_eq_zero_iff.mp h with h | h
        · exact Or.inl h
        · exact Or.inr ⟨s, List.mem_cons_self _ _, h⟩
      · exact Or.inr ⟨t, List.mem_cons_of_mem _ ht, hft⟩
    · rintro (h | ⟨t, ht, hft⟩)
      · exact Or.inl (Nat.min_eq_zero_iff.mpr (Or.inl h))
      · rcases List.mem_cons.mp ht with rfl | ht
        · exact Or.inl (Nat.min_eq_zero_iff.mpr (Or.inr hft))
        · exact Or.inr ⟨t, ht, hft⟩

/-- The concrete engine gives distance 0 exactly to the seeds. -/
theorem gridEngine_zero_iff (seeds : List MapPoint) (size : MapExtent) (p : MapPoint) :
    gridEngine.DistancesTo seeds size p = 0 ↔ p ∈ seeds := by
  show nearestSeed seeds size p = 0 ↔ p ∈ seeds
  unfold nearestSeed
  rw [foldl_min_eq_zero (fun s => gridSteps s p)]
  constructor
  · rintro (h | ⟨s, hs, hsp⟩)
    · unfold unreachable at h; omega
    · exact ((gridSteps_eq_zero s p).mp hsp) ▸ hs
  · intro h
    exact Or.inr ⟨p, h, (gridSteps_eq_zero p p).mpr rfl⟩

/-! ## Facts about the obstacle rule -/

theorem foldl_max_ge_init (values : NodeMapBase) : ∀ (l : List MapPoint) (init : Nat),
    init ≤ l.foldl (fun m q => max m (values q)) init := by
  intro l
  induction l with
  | nil => intro init; exact le_refl _
  | cons a l ih =>
    intro init
    rw [List.foldl_cons]
    exact le_trans (Nat.le_max_left _ _) (ih _)

theorem foldl_max_ge_mem (values : NodeMapBase) : ∀ (l : List MapPoint) (init : Nat),
    ∀ p ∈ l, values p ≤ l.foldl (fun m q => max m (values q)) init := by
  intro l
  induction l with
  | nil => intro init p hp; exact absurd hp (List.not_mem_nil _)
  | cons a l ih =>
    intro init p hp
    rw [List.foldl_cons]
    rcases List.mem_cons.mp hp with rfl | hp
    · exact le_trans (Nat.le_max_right _ _) (foldl_max_ge_init values l _)
    · exact ih _ p hp

theorem foldl_max_attained (values : NodeMapBase) : ∀ (l : List MapPoint) (init : Nat),
    l.foldl (fun m q => max m (values q)) init = init ∨
      ∃ p ∈ l, l.foldl (fun m q => max m (values q)) init = values p := by
  intro l
  induction l with
  | nil => intro init; exact Or.inl rfl
  | cons a l ih =>
    intro init
    rw [List.foldl_cons]
    rcases ih (max init (values a)) with h | ⟨p, hp, h⟩
    · rcases Nat.le_total init (values a) with hle | hle
      · exact Or.inr ⟨a, List.mem_cons_self _ _, by rw [h, Nat.max_eq_right hle]⟩
      · exact Or.inl (by rw [h, Nat.max_eq_left hle])
    · exact Or.inr ⟨p, List.mem_cons_of_mem _ hp, h⟩

/-- `GetMaximum` bounds the field on the area. -/
theorem le_GetMaximum (values : NodeMapBase) (area : List MapPoint) (p : MapPoint)
    (hp : p ∈ area) : values p ≤ GetMaximum values area := by
  cases area with
  | nil => exact absurd hp (List.not_mem_nil _)
  | cons a l =>
    unfold GetMaximum
    rcases List.mem_cons.mp hp with rfl | hp
    · exact foldl_max_ge_init values l _
    · exact foldl_max_ge_mem values l _ p hp

/-- `GetMaximum` is the value of the field on some cell of a non-empty area. -/
theorem GetMaximum_attained (values : NodeMapBase) (area : List MapPoint) (h : area ≠ []) :
    ∃ p ∈ area, GetMaximum values area = values p := by
  cases area with
  | nil => exact absurd rfl h
  | cons a l =>
    unfold GetMaximum
    rcases foldl_max_attained values l (values a) with h1 | ⟨p, hp, h1⟩
    · exact ⟨a, List.mem_cons_self _ _, h1⟩
    · exact ⟨p, List.mem_cons_of_mem _ hp, h1⟩

theorem clamp_le_self (value : Nat) (h : 2 ≤ value) : clamp value 2 4 ≤ value := by
  unfold clamp
  split
  · omega
  · split <;> omega

section ObstacleFacts

variable (alg : Algorithms) (map : Map) (area : List MapPoint) (playerDistanceToMountains : Nat)

/-- Some cell of the area meets the obstacle rule exactly when some cell of the area has
obstacle distance at least 2. -/
theorem exists_obstacleRule_iff :
    (∃ p ∈ area, obstacleRule alg map area p = true)
      ↔ ∃ p ∈ area, 2 ≤ obstacleDistance alg map p := by
  constructor
  · rintro ⟨p, hp, hrule⟩
    unfold obstacleRule minObstacleDistance at hrule
    exact ⟨p, hp, le_trans (two_le_clamp _) (of_decide_eq_true hrule)⟩
  · rintro ⟨p, hp, h2⟩
    have hne : area ≠ [] := List.ne_nil_of_mem hp
    obtain ⟨q, hq, hmax⟩ := GetMaximum_attained (obstacleDistance alg map) area hne
    have hle := le_GetMaximum (obstacleDistance alg map) area p hp
    refine ⟨q, hq, ?_⟩
    unfold obstacleRule minObstacleDistance
    apply decide_eq_true
    show clamp (GetMaximum (obstacleDistance alg map) area) 2 4 ≤ obstacleDistance alg map q
    rw [← hmax]
    exact clamp_le_self _ (le_trans h2 hle)

/-- The selector returns a candidate exactly when some cell of the area has obstacle distance
at least 2. -/
theorem FindHqPositions_ne_nil_iff (h : area ≠ []) :
    ∃ positions, FindHqPositions alg map area playerDistanceToMountains = .ok positions ∧
      (positions ≠ [] ↔ ∃ p ∈ area, 2 ≤ obstacleDistance alg map p) := by
  obtain ⟨r, hr, hcase⟩ := FindHqPositions_eq alg map area playerDistanceToMountains h
  refine ⟨_, hr, ?_⟩
  have hperm := stdSort_perm (isBetter alg map) r
  constructor
  · intro hne
    obtain ⟨p, hp⟩ := List.exists_mem_of_ne_nil _ hne
    have hm := FindHqPositions_mem alg map area playerDistanceToMountains _ hr p hp
    exact (exists_obstacleRule_iff alg map area).mp ⟨p, hm.1, hm.2⟩
  · intro hex
    obtain ⟨p, hp, hrule⟩ := (exists_obstacleRule_iff alg map area).mpr hex
    have hrne : r ≠ [] := by
      rcases hcase with ⟨d, _, _, _, h4, h5⟩ | ⟨_, h2⟩
      · rw [h5]; exact h4
      · rw [h2]
        exact List.ne_nil_of_mem
          (List.mem_append_right _ (List.mem_filter.mpr ⟨hp, hrule⟩))
    intro hnil
    exact hrne (List.Perm.eq_nil (hnil ▸ hperm.symm))

end ObstacleFacts

/-! ## Facts about the mountain band -/

/-- Below an allowed distance of 5 the unsigned difference `allowed - 5` wraps around and the
band test accepts no mountain distance. -/
theorem mountainsInReach_below_five (alg : Algorithms) (map : Map) (allowed : Nat)
    (pt : MapPoint) (h : allowed < 5) : mountainsInReach alg map allowed pt = false := by
  unfold mountainsInReach UINT_SIZE
  rw [Bool.and_eq_false_iff]
  by_cases hm : mountainDistance alg map pt < (allowed + 5) % 4294967296
  · right
    apply decide_eq_false
    omega
  · left
    exact decide_eq_false hm

/-- From an allowed distance of 5 on, as long as `allowed + 5` does not overflow, the band test
is the integer condition `allowed - 5 < m < allowed + 5`. -/
theorem mountainsInReach_from_five (alg : Algorithms) (map : Map) (allowed : Nat)
    (pt : MapPoint) (h5 : 5 ≤ allowed) (hU : allowed + 5 < UINT_SIZE) :
    mountainsInReach alg map allowed pt = true
      ↔ allowed - 5 < mountainDistance alg map pt ∧ mountainDistance alg map pt < allowed + 5 := by
  unfold UINT_SIZE at hU
  unfold mountainsInReach UINT_SIZE
  rw [Bool.and_eq_true, decide_eq_true_iff, decide_eq_true_iff]
  have e1 : (allowed + 5) % 4294967296 = allowed + 5 := Nat.mod_eq_of_lt hU
  have e2 : (allowed + 4294967296 - 5) % 4294967296 = allowed - 5 := by omega
  rw [e1, e2]
  constructor
  · rintro ⟨h1, h2⟩; exact ⟨h2, h1⟩
  · rintro ⟨h1, h2⟩; exact ⟨h2, h1⟩

/-! ## Facts about the scan count -/

section ScanFacts

variable (alg : Algorithms) (map : Map) (area : List MapPoint) (playerDistanceToMountains : Nat)

/-- Counting the scans does not change the positions the loop collects. -/
theorem relaxLoopScans_fst : ∀ (fuel allowed : Nat) (positions : List MapPoint) (scans : Nat),
    (relaxLoopScans alg map area playerDistanceToMountains fuel allowed positions scans).map
        Prod.fst
      = relaxLoop alg map area playerDistanceToMountains fuel allowed positions := by
  intro fuel
  induction fuel with
  | zero => intro allowed positions scans; rfl
  | succ fuel ih =>
    intro allowed positions scans
    rw [relaxLoopScans, relaxLoop]
    by_cases hp : positions.isEmpty = true
    · rw [if_pos hp, if_pos hp]
      by_cases hlt : allowed < maxMountainDistance map
      · rw [if_pos hlt, if_pos hlt]
        exact ih _ _ _
      · rw [if_neg hlt, if_neg hlt]
        rfl
    · rw [if_neg hp, if_neg hp]
      rfl

theorem relaxLoopScans_of_ne_nil (fuel allowed scans : Nat) (positions : List MapPoint)
    (h : positions ≠ []) :
    relaxLoopScans alg map area playerDistanceToMountains (fuel + 1) allowed positions scans
      = some (positions, scans) := by
  cases positions with
  | nil => exact absurd rfl h
  | cons p ps => simp [relaxLoopScans]

/-- The loop started at `allowed` with no position yet ends within `maxMountainDistance - allowed
+ 2` iterations of the budget, whatever the budget beyond that, after at least one and at most
`maxMountainDistance - allowed + 1` scans. -/
theorem relaxLoopScans_spec (n : Nat) : ∀ allowed scans : Nat,
    maxMountainDistance map - allowed = n →
    ∃ r k, 1 ≤ k ∧ k ≤ n + 1 ∧ ∀ extra,
      relaxLoopScans alg map area playerDistanceToMountains (n + 2 + extra) allowed [] scans
        = some (r, scans + k) := by
  induction n with
  | zero =>
    intro allowed scans hn
    have hge : ¬ allowed < maxMountainDistance map := by omega
    refine ⟨area.filter (scanAccepts alg map area playerDistanceToMountains allowed)
      ++ area.filter (obstacleRule alg map area), 1, le_refl _, le_refl _, ?_⟩
    intro extra
    have hfuel : 0 + 2 + extra = (1 + extra) + 1 := by omega
    rw [hfuel, relaxLoopScans]
    simp only [List.isEmpty_nil, if_true, List.nil_append, hge, if_false]
  | succ n ih =>
    intro allowed scans hn
    have hlt : allowed < maxMountainDistance map := by omega
    have hU := maxMountainDistance_lt map
    have hmod : (allowed + 1) % UINT_SIZE = allowed + 1 := Nat.mod_eq_of_lt (by omega)
    by_cases hs : area.filter (scanAccepts alg map area playerDistanceToMountains allowed) = []
    · obtain ⟨r, k, hk1, hk2, hrun⟩ := ih (allowed + 1) (scans + 1) (by omega)
      refine ⟨r, k + 1, by omega, by omega, ?_⟩
      intro extra
      have hfuel : n + 1 + 2 + extra = (n + 2 + extra) + 1 := by omega
      rw [hfuel, relaxLoopScans]
      simp only [List.isEmpty_nil, if_true, List.nil_append, hlt, hmod, hs]
      rw [hrun extra]
      have hsum : scans + 1 + k = scans + (k + 1) := by omega
      rw [hsum]
    · refine ⟨area.filter (scanAccepts alg map area playerDistanceToMountains allowed), 1,
        le_refl _, by omega, ?_⟩
      intro extra
      have hfuel : n + 1 + 2 + extra = (n + 1 + extra + 1) + 1 := by omega
      rw [hfuel, relaxLoopScans]
      simp only [List.isEmpty_nil, if_true, List.nil_append, hlt, hmod]
      exact relaxLoopScans_of_ne_nil alg map area playerDistanceToMountains _ _ _ _ hs

end ScanFacts

/-! ## Properties of the selector and of the placement -/

/-- C1: for a non-empty area FindHqPositions returns a list ordered by quality, highest first:
whenever p comes before q in the result, the distance of p to the nearest valid existing
headquarters is at least that of q. -/
theorem FindHqPositions_sorted_by_quality (alg : Algorithms) (map : Map) (area : List MapPoint)
    (playerDistanceToMountains : Nat) (h : area ≠ []) :
    ∃ positions, FindHqPositions alg map area playerDistanceToMountains = .ok positions ∧
      positions.Pairwise
        (fun p q => potentialHqQuality alg map p ≥ potentialHqQuality alg map q) := by
  obtain ⟨r, hr, _⟩ := FindHqPositions_eq alg map area playerDistanceToMountains h
  exact ⟨_, hr, stdSort_sorted (potentialHqQuality alg map) r⟩

theorem FindHqPositions_sorted_by_quality_witness :
    ([⟨2, 2⟩, ⟨3, 3⟩, ⟨4, 4⟩] : List MapPoint) ≠ [] ∧
    ∃ positions, FindHqPositions gridEngine cornerMap [⟨2, 2⟩, ⟨3, 3⟩, ⟨4, 4⟩] 3 = .ok positions ∧
      positions.Pairwise
        (fun p q => potentialHqQuality gridEngine cornerMap p
          ≥ potentialHqQuality gridEngine cornerMap q) :=
  ⟨by decide, FindHqPositions_sorted_by_quality gridEngine cornerMap _ 3 (by decide)⟩

/-- C2: every coordinate returned by FindHqPositions is an element of the area and has obstacle
distance at least clamp(M, 2, 4), M being the maximum obstacle distance over the area; in
particular its obstacle distance is at least 2. -/
theorem FindHqPositions_in_area_obstacle_ok (alg : Algorithms) (map : Map)
    (area : List MapPoint) (playerDistanceToMountains : Nat) (h : area ≠ []) :
    ∃ positions, FindHqPositions alg map area playerDistanceToMountains = .ok positions ∧
      ∀ pt ∈ positions, pt ∈ area ∧
        clamp (GetMaximum (obstacleDistance alg map) area) 2 4 ≤ obstacleDistance alg map pt ∧
        2 ≤ obstacleDistance alg map pt := by
  obtain ⟨r, hr, _⟩ := FindHqPositions_eq alg map area playerDistanceToMountains h
  refine ⟨_, hr, ?_⟩
  intro pt hpt
  have hm := FindHqPositions_mem alg map area playerDistanceToMountains _ hr pt hpt
  have hrule : clamp (GetMaximum (obstacleDistance alg map) area) 2 4
      ≤ obstacleDistance alg map pt := by
    have := hm.2
    unfold obstacleRule minObstacleDistance at this
    exact of_decide_eq_true this
  exact ⟨hm.1, hrule, le_trans (two_le_clamp _) hrule⟩

theorem FindHqPositions_in_area_obstacle_ok_witness :
    ([⟨2, 2⟩, ⟨3, 3⟩, ⟨0, 1⟩] : List MapPoint) ≠ [] ∧
    ∃ positions, FindHqPositions gridEngine cornerMap [⟨2, 2⟩, ⟨3, 3⟩, ⟨0, 1⟩] 3 = .ok positions ∧
      ∀ pt ∈ positions, pt ∈ ([⟨2, 2⟩, ⟨3, 3⟩, ⟨0, 1⟩] : List MapPoint) ∧
        clamp (GetMaximum (obstacleDistance gridEngine cornerMap) [⟨2, 2⟩, ⟨3, 3⟩, ⟨0, 1⟩]) 2 4
          ≤ obstacleDistance gridEngine cornerMap pt ∧
        2 ≤ obstacleDistance gridEngine cornerMap pt :=
  ⟨by decide, FindHqPositions_in_area_obstacle_ok gridEngine cornerMap _ 3 (by decide)⟩

/-- C3: called with an empty area FindHqPositions fails with a runtime_error and never returns
a list, whatever the map and the desired mountain distance are; PlaceHeadquarter with an empty
area fails with the same error. -/
theorem FindHqPositions_empty_area_throws (alg : Algorithms) (map : Map)
    (playerDistanceToMountains index : Nat) :
    FindHqPositions alg map [] playerDistanceToMountains
        = .error (.runtime_error "Could not find any valid HQ position!") ∧
      (∀ positions, FindHqPositions alg map [] playerDistanceToMountains ≠ .ok positions) ∧
      (PlaceHeadquarter alg map [] playerDistanceToMountains index).1
        = .error (.runtime_error "Could not find any valid HQ position!") := by
  refine ⟨rfl, ?_, rfl⟩
  intro positions h
  simp [FindHqPositions] at h

/-- C4: the documentation promises that an empty area searches the entire map; on the 4 x 4
map the call with an empty area throws, while the call whose area lists every point of the map
returns five positions. -/
theorem FindHqPositions_empty_area_is_not_whole_map :
    FindHqPositions gridEngine smallMap [] 0
        = .error (.runtime_error "Could not find any valid HQ position!") ∧
      FindHqPositions gridEngine smallMap (allPoints smallMap.size) 0
        = .ok [⟨2, 3⟩, ⟨1, 3⟩, ⟨3, 2⟩, ⟨2, 2⟩, ⟨3, 1⟩] :=
  ⟨rfl, rfl⟩

/-- C5: when PlaceHeadquarter returns normally, the map after the call is the old map with
entry index of the headquarters table replaced by the first element of FindHqPositions evaluated
on the old table; that element is a cell of the area meeting the obstacle rule whose quality is
maximal among all returned candidates, and every other entry of the table is unchanged. -/
theorem PlaceHeadquarter_assigns_front (alg : Algorithms) (map : Map) (area : List MapPoint)
    (playerDistanceToMountains index : Nat)
    (h : (PlaceHeadquarter alg map area playerDistanceToMountains index).1 = .ok ()) :
    ∃ front rest,
      FindHqPositions alg map area playerDistanceToMountains = .ok (front :: rest) ∧
      (PlaceHeadquarter alg map area playerDistanceToMountains index).2
        = { map with hqPositions := map.hqPositions.set index front } ∧
      front ∈ area ∧
      minObstacleDistance alg map area ≤ obstacleDistance alg map front ∧
      (∀ q ∈ front :: rest, potentialHqQuality alg map q ≤ potentialHqQuality alg map front) ∧
      (index < map.hqPositions.length →
        (PlaceHeadquarter alg map area playerDistanceToMountains index).2.hqPositions[index]?
          = some front) ∧
      (∀ j, j ≠ index →
        (PlaceHeadquarter alg map area playerDistanceToMountains index).2.hqPositions[j]?
          = map.hqPositions[j]?) := by
  unfold PlaceHeadquarter at h ⊢
  cases hf : FindHqPositions alg map area playerDistanceToMountains with
  | error e => rw [hf] at h; simp at h
  | ok positions =>
    cases positions with
    | nil => rw [hf] at h; simp at h
    | cons front rest =>
      have hm := FindHqPositions_mem alg map area playerDistanceToMountains _ hf front
        (List.mem_cons_self _ _)
      have hne : area ≠ [] := fun h0 => by rw [h0] at hm; exact absurd hm.1 (List.not_mem_nil _)
      obtain ⟨ps, hps, hsorted⟩ :=
        FindHqPositions_sorted_by_quality_aux alg map area playerDistanceToMountains hne
      rw [hf] at hps
      injection hps with hps
      rw [← hps] at hsorted
      refine ⟨front, rest, rfl, rfl, hm.1, ?_, ?_, ?_, ?_⟩
      · have := hm.2
        unfold obstacleRule at this
        exact of_decide_eq_true this
      · intro q hq
        rcases List.mem_cons.mp hq with rfl | hq
        · exact le_refl _
        · exact (List.pairwise_cons.mp hsorted).1 q hq
      · intro hi
        simp [List.getElem?_set, hi]
      · intro j hj
        simp [List.getElem?_set, Ne.symm hj]

theorem PlaceHeadquarter_assigns_front_witness :
    (PlaceHeadquarter gridEngine cornerMap [⟨2, 2⟩, ⟨3, 3⟩, ⟨4, 4⟩] 3 1).1 = .ok () ∧
    ∃ front rest,
      FindHqPositions gridEngine cornerMap [⟨2, 2⟩, ⟨3, 3⟩, ⟨4, 4⟩] 3 = .ok (front :: rest) ∧
      (PlaceHeadquarter gridEngine cornerMap [⟨2, 2⟩, ⟨3, 3⟩, ⟨4, 4⟩] 3 1).2
        = { cornerMap with hqPositions := cornerMap.hqPositions.set 1 front } ∧
      front ∈ ([⟨2, 2⟩, ⟨3, 3⟩, ⟨4, 4⟩] : List MapPoint) ∧
      minObstacleDistance gridEngine cornerMap [⟨2, 2⟩, ⟨3, 3⟩, ⟨4, 4⟩]
        ≤ obstacleDistance gridEngine cornerMap front ∧
      (∀ q ∈ front :: rest,
        potentialHqQuality gridEngine cornerMap q ≤ potentialHqQuality gridEngine cornerMap front) ∧
      (1 < cornerMap.hqPositions.length →
        (PlaceHeadquarter gridEngine cornerMap [⟨2, 2⟩, ⟨3, 3⟩, ⟨4, 4⟩] 3 1).2.hqPositions[1]?
          = some front) ∧
      (∀ j, j ≠ 1 →
        (PlaceHeadquarter gridEngine cornerMap [⟨2, 2⟩, ⟨3, 3⟩, ⟨4, 4⟩] 3 1).2.hqPositions[j]?
          = cornerMap.hqPositions[j]?) :=
  ⟨rfl, PlaceHeadquarter_assigns_front gridEngine cornerMap _ 3 1 rfl⟩

/-- C6: when PlaceHeadquarter fails, the area is empty or the selector returned no candidate,
and the map after the call is the map before the call: no entry of the headquarters table,
entry index included, is modified. -/
theorem PlaceHeadquarter_failure_keeps_table (alg : Algorithms) (map : Map)
    (area : List MapPoint) (playerDistanceToMountains index : Nat) (e : Failure)
    (h : (PlaceHeadquarter alg map area playerDistanceToMountains index).1 = .error e) :
    (PlaceHeadquarter alg map area playerDistanceToMountains index).2 = map ∧
      (PlaceHeadquarter alg map area playerDistanceToMountains index).2.hqPositions
        = map.hqPositions ∧
      (area = [] ∨ FindHqPositions alg map area playerDistanceToMountains = .ok []) := by
  unfold PlaceHeadquarter at h ⊢
  cases hf : FindHqPositions alg map area playerDistanceToMountains with
  | error e1 =>
    refine ⟨rfl, rfl, Or.inl ?_⟩
    by_contra hne
    obtain ⟨r, hr, _⟩ := FindHqPositions_eq alg map area playerDistanceToMountains hne
    rw [hr] at hf
    exact absurd hf (by simp)
  | ok positions =>
    cases positions with
    | nil => exact ⟨rfl, rfl, Or.inr rfl⟩
    | cons front rest => rw [hf] at h; simp at h

theorem PlaceHeadquarter_failure_keeps_table_witness :
    (PlaceHeadquarter gridEngine cornerMap [⟨0, 1⟩, ⟨1, 0⟩] 3 1).1
        = .error (.runtime_error "Could not find any valid HQ position!") ∧
    ((PlaceHeadquarter gridEngine cornerMap [⟨0, 1⟩, ⟨1, 0⟩] 3 1).2 = cornerMap ∧
      (PlaceHeadquarter gridEngine cornerMap [⟨0, 1⟩, ⟨1, 0⟩] 3 1).2.hqPositions
        = cornerMap.hqPositions ∧
      (([⟨0, 1⟩, ⟨1, 0⟩] : List MapPoint) = [] ∨
        FindHqPositions gridEngine cornerMap [⟨0, 1⟩, ⟨1, 0⟩] 3 = .ok [])) :=
  ⟨rfl, PlaceHeadquarter_failure_keeps_table gridEngine cornerMap _ 3 1 _ rfl⟩

/-- C7, as stated, fails: player 0 holds (2, 2) and the only admissible cell of the area is
(2, 2); the call for player 1 returns normally and assigns (2, 2) again. -/
theorem PlaceHeadquarter_can_duplicate :
    NoDuplicateHq cornerMap.hqPositions ∧
      (PlaceHeadquarter gridEngine cornerMap [⟨2, 2⟩, ⟨0, 1⟩] 3 1).1 = .ok () ∧
      (PlaceHeadquarter gridEngine cornerMap [⟨2, 2⟩, ⟨0, 1⟩] 3 1).2.hqPositions
        = [⟨2, 2⟩, ⟨2, 2⟩] ∧
      ¬ NoDuplicateHq (PlaceHeadquarter gridEngine cornerMap [⟨2, 2⟩, ⟨0, 1⟩] 3 1).2.hqPositions :=
  ⟨by decide, rfl, rfl, by decide⟩

/-- C7, amended: if no two players hold the same valid coordinate, the quality field is 0 on
every valid existing headquarters and the selector returns a candidate of positive quality,
then PlaceHeadquarter returns normally and after the call no two players hold the same valid
coordinate. -/
theorem PlaceHeadquarter_keeps_no_duplicates (alg : Algorithms) (map : Map)
    (area : List MapPoint) (playerDistanceToMountains index : Nat)
    (hzero : ∀ p ∈ hqs map, potentialHqQuality alg map p = 0)
    (hnd : NoDuplicateHq map.hqPositions)
    (hpos : ∃ positions, FindHqPositions alg map area playerDistanceToMountains = .ok positions ∧
      ∃ q ∈ positions, 0 < potentialHqQuality alg map q) :
    (PlaceHeadquarter alg map area playerDistanceToMountains index).1 = .ok () ∧
    NoDuplicateHq (PlaceHeadquarter alg map area playerDistanceToMountains index).2.hqPositions := by
  obtain ⟨positions, hf, q, hq, hqpos⟩ := hpos
  have hne : area ≠ [] := fun h0 => by
    rw [h0] at hf
    simp [FindHqPositions] at hf
  obtain ⟨ps, hps, hsorted⟩ :=
    FindHqPositions_sorted_by_quality_aux alg map area playerDistanceToMountains hne
  rw [hf] at hps
  injection hps with hps
  rw [← hps] at hsorted
  cases positions with
  | nil => exact absurd hq (List.not_mem_nil _)
  | cons front rest =>
    have hfront : 0 < potentialHqQuality alg map front := by
      rcases List.mem_cons.mp hq with rfl | hq
      · exact hqpos
      · exact lt_of_lt_of_le hqpos ((List.pairwise_cons.mp hsorted).1 q hq)
    have hnot : front ∉ map.hqPositions.filter MapPoint.isValid := by
      intro hmem
      have := hzero front hmem
      omega
    unfold PlaceHeadquarter
    rw [hf]
    exact ⟨rfl, nodup_filter_set MapPoint.isValid front map.hqPositions index hnd hnot⟩

theorem PlaceHeadquarter_keeps_no_duplicates_witness :
    (∀ p ∈ hqs cornerMap, potentialHqQuality gridEngine cornerMap p = 0) ∧
    NoDuplicateHq cornerMap.hqPositions ∧
    (∃ positions, FindHqPositions gridEngine cornerMap [⟨2, 2⟩, ⟨3, 3⟩, ⟨4, 4⟩] 3 = .ok positions ∧
      ∃ q ∈ positions, 0 < potentialHqQuality gridEngine cornerMap q) ∧
    (PlaceHeadquarter gridEngine cornerMap [⟨2, 2⟩, ⟨3, 3⟩, ⟨4, 4⟩] 3 1).1 = .ok () ∧
    NoDuplicateHq
      (PlaceHeadquarter gridEngine cornerMap [⟨2, 2⟩, ⟨3, 3⟩, ⟨4, 4⟩] 3 1).2.hqPositions :=
  ⟨by decide, by decide, ⟨[⟨4, 4⟩, ⟨3, 3⟩, ⟨2, 2⟩], rfl, ⟨4, 4⟩, by decide, by decide⟩,
    PlaceHeadquarter_keeps_no_duplicates gridEngine cornerMap [⟨2, 2⟩, ⟨3, 3⟩, ⟨4, 4⟩] 3 1
      (by decide) (by decide) ⟨[⟨4, 4⟩, ⟨3, 3⟩, ⟨2, 2⟩], rfl, ⟨4, 4⟩, by decide, by decide⟩⟩

/-- C8: on a map whose headquarters table starts all-invalid and has room for N players, with an
area of valid coordinates for which the selector returns at least N distinct candidates, and with
a quality field that is 0 exactly on the placed headquarters, placing the players 0..N-1 in
increasing index order by PlaceHeadquarter succeeds for every player and the N assigned
coordinates are valid cells of the area and pairwise distinct. -/
theorem placePlayers_assigns_distinct (alg : Algorithms) (map : Map) (area : List MapPoint)
    (playerDistanceToMountains N : Nat)
    (hengine : ∀ seeds p, alg.DistancesTo seeds map.size p = 0 ↔ p ∈ seeds)
    (hinit : ∀ p ∈ map.hqPositions, p = MapPoint.Invalid)
    (hlen : N ≤ map.hqPositions.length)
    (hvalid : ∀ p ∈ area, p.isValid = true)
    (hcand : ∃ cs positions : List MapPoint, cs.length = N ∧ cs.Nodup ∧
      FindHqPositions alg map area playerDistanceToMountains = .ok positions ∧
      ∀ c ∈ cs, c ∈ positions) :
    (placePlayers alg area playerDistanceToMountains map (List.range N)).1 = .ok () ∧
    ((placePlayers alg area playerDistanceToMountains map (List.range N)).2.hqPositions.take
      N).length = N ∧
    ((placePlayers alg area playerDistanceToMountains map (List.range N)).2.hqPositions.take
      N).Nodup ∧
    ∀ p ∈ (placePlayers alg area playerDistanceToMountains map (List.range N)).2.hqPositions.take
      N, p.isValid = true ∧ p ∈ area := by
  obtain ⟨cs, positions, hcslen, hnd, hfind, hcs⟩ := hcand
  have hne : area ≠ [] := fun h0 => by
    rw [h0] at hfind
    simp [FindHqPositions] at hfind
  obtain ⟨r, hr⟩ := FindHqPositions_candidates alg map area playerDistanceToMountains hne
  have hr0 : FindHqPositions alg map area playerDistanceToMountains
      = .ok (stdSort (isBetter alg map) r) := hr map.hqPositions
  have hpos : positions = stdSort (isBetter alg map) r := by
    rw [hfind] at hr0
    injection hr0
  have hperm : positions.Perm r := hpos ▸ stdSort_perm (isBetter alg map) r
  have hrarea : ∀ p ∈ r, p ∈ area := fun p hp =>
    (FindHqPositions_mem alg map area playerDistanceToMountains positions hfind p
      (hperm.symm.subset hp)).1
  have hinv0 : PlacedUpTo area 0 map.hqPositions :=
    ⟨List.nodup_nil, fun p hp => absurd hp (List.not_mem_nil _), fun p hp => hinit p hp⟩
  obtain ⟨table', hrun, hlen', hinv⟩ := placePlayers_range alg map area
    playerDistanceToMountains r cs hengine hvalid hr hrarea hnd
    (fun c hc => hperm.subset (hcs c hc)) N 0 map.hqPositions (by omega) (by omega) hinv0
  have hrun2 : placePlayers alg area playerDistanceToMountains map (List.range N)
      = (.ok (), { map with hqPositions := table' }) := by
    rw [List.range_eq_range']
    exact hrun
  rw [Nat.zero_add] at hinv
  rw [hrun2]
  refine ⟨rfl, ?_, hinv.1, hinv.2.1⟩
  show (table'.take N).length = N
  rw [List.length_take, hlen']
  exact Nat.min_eq_left hlen

theorem placePlayers_assigns_distinct_witness :
    (∀ p ∈ smallMap.hqPositions, p = MapPoint.Invalid) ∧
    4 ≤ smallMap.hqPositions.length ∧
    (∀ p ∈ allPoints smallMap.size, p.isValid = true) ∧
    (placePlayers gridEngine (allPoints smallMap.size) 0 smallMap (List.range 4)).2.hqPositions
      = [⟨2, 3⟩, ⟨3, 1⟩, ⟨1, 3⟩, ⟨3, 2⟩] ∧
    ((placePlayers gridEngine (allPoints smallMap.size) 0 smallMap (List.range 4)).1 = .ok () ∧
    ((placePlayers gridEngine (allPoints smallMap.size) 0 smallMap
      (List.range 4)).2.hqPositions.take 4).length = 4 ∧
    ((placePlayers gridEngine (allPoints smallMap.size) 0 smallMap
      (List.range 4)).2.hqPositions.take 4).Nodup ∧
    ∀ p ∈ (placePlayers gridEngine (allPoints smallMap.size) 0 smallMap
      (List.range 4)).2.hqPositions.take 4, p.isValid = true ∧ p ∈ allPoints smallMap.size) :=
  ⟨by decide, by decide, by decide, rfl,
    placePlayers_assigns_distinct gridEngine smallMap (allPoints smallMap.size) 0 4
      (fun seeds p => gridEngine_zero_iff seeds smallMap.size p) (by decide) (by decide)
      (by decide)
      ⟨[⟨2, 3⟩, ⟨1, 3⟩, ⟨3, 2⟩, ⟨2, 2⟩], [⟨2, 3⟩, ⟨1, 3⟩, ⟨3, 2⟩, ⟨2, 2⟩, ⟨3, 1⟩],
        rfl, by decide, rfl, by decide⟩⟩

/-- C9: on an 8 x 8 map without mountains the mountain criterion is dropped and exactly one cell
of the area, (2, 2), meets the obstacle rule; the code returns that cell twice, since the pass
that ignores the mountain band runs after the scan that already accepted the cell. -/
theorem FindHqPositions_no_mountains_lists_twice :
    noMountainsAvailable gridEngine plainMap [⟨0, 1⟩, ⟨1, 1⟩, ⟨2, 2⟩] 3 = true ∧
      ([⟨0, 1⟩, ⟨1, 1⟩, ⟨2, 2⟩] : List MapPoint).filter
          (obstacleRule gridEngine plainMap [⟨0, 1⟩, ⟨1, 1⟩, ⟨2, 2⟩]) = [⟨2, 2⟩] ∧
      FindHqPositions gridEngine plainMap [⟨0, 1⟩, ⟨1, 1⟩, ⟨2, 2⟩] 3
        = .ok [⟨2, 2⟩, ⟨2, 2⟩] :=
  ⟨rfl, rfl, rfl⟩

/-- The first successful scan below the maximum decides the result.  Here a cell passes a scan
when the test of source line 87 accepts it, unsigned wrap-around of line 85 included: if d, with
minMountainDistance <= d < width+height, is the smallest allowed mountain distance at which
that test accepts some cell of the area, then for an area without repeated coordinates
FindHqPositions returns exactly the area cells the test accepts at d, each once. -/
theorem FindHqPositions_first_successful_scan (alg : Algorithms) (map : Map)
    (area : List MapPoint) (playerDistanceToMountains d : Nat)
    (hnodup : area.Nodup)
    (hmin : minMountainDistance alg map area playerDistanceToMountains ≤ d)
    (hmax : d < maxMountainDistance map)
    (hpass : ∃ p ∈ area, scanAccepts alg map area playerDistanceToMountains d p = true)
    (hfirst : ∀ k, k < d → minMountainDistance alg map area playerDistanceToMountains ≤ k →
      ∀ p ∈ area, scanAccepts alg map area playerDistanceToMountains k p = false) :
    ∃ positions, FindHqPositions alg map area playerDistanceToMountains = .ok positions ∧
      positions.Nodup ∧
      positions.Perm (area.filter (scanAccepts alg map area playerDistanceToMountains d)) ∧
      (∀ p, p ∈ positions ↔
        p ∈ area ∧ scanAccepts alg map area playerDistanceToMountains d p = true) ∧
      (∀ p ∈ positions, obstacleRule alg map area p = true ∧
        mountainsInReach alg map d p = true) := by
  obtain ⟨p0, hp0, hp0acc⟩ := hpass
  have hne : area ≠ [] := fun h0 => by rw [h0] at hp0; exact absurd hp0 (List.not_mem_nil _)
  have hscan : area.filter (scanAccepts alg map area playerDistanceToMountains d) ≠ [] :=
    List.ne_nil_of_mem (List.mem_filter.mpr ⟨hp0, hp0acc⟩)
  have hnone : ∀ k, minMountainDistance alg map area playerDistanceToMountains ≤ k → k < d →
      area.filter (scanAccepts alg map area playerDistanceToMountains k) = [] := by
    intro k hk1 hk2
    rw [List.filter_eq_nil_iff]
    intro p hp
    rw [hfirst k hk2 hk1 p hp]
    decide
  obtain ⟨r, hr, hcase⟩ := FindHqPositions_eq alg map area playerDistanceToMountains hne
  have hreq : r = area.filter (scanAccepts alg map area playerDistanceToMountains d) := by
    rcases hcase with ⟨d', h1, h2, h3, h4, h5⟩ | ⟨h1, _⟩
    · have hdd : d' = d := by
        rcases Nat.lt_trichotomy d' d with hlt | heq | hgt
        · exact absurd (hnone d' h1 hlt) h4
        · exact heq
        · exact absurd (h3 d hmin hgt) hscan
      rw [h5, hdd]
    · exact absurd (h1 d hmin hmax) hscan
  have hperm : (stdSort (isBetter alg map) r).Perm
      (area.filter (scanAccepts alg map area playerDistanceToMountains d)) :=
    hreq ▸ stdSort_perm (isBetter alg map) r
  have hnoMount : noMountainsAvailable alg map area playerDistanceToMountains = false := by
    unfold noMountainsAvailable
    exact decide_eq_false (by omega)
  refine ⟨_, hr, hperm.nodup_iff.mpr (hnodup.filter _), hperm, ?_, ?_⟩
  · intro p
    rw [hperm.mem_iff, List.mem_filter]
  · intro p hp
    have hacc := (List.mem_filter.mp (hperm.subset hp)).2
    unfold scanAccepts at hacc
    rw [hnoMount, Bool.false_or, Bool.and_eq_true] at hacc
    exact hacc

theorem FindHqPositions_first_successful_scan_witness :
    ([⟨6, 6⟩, ⟨5, 5⟩, ⟨0, 1⟩] : List MapPoint).Nodup ∧
    minMountainDistance gridEngine cornerMap [⟨6, 6⟩, ⟨5, 5⟩, ⟨0, 1⟩] 0 = 2 ∧
    (5 : Nat) < maxMountainDistance cornerMap ∧
    ∃ positions,
      FindHqPositions gridEngine cornerMap [⟨6, 6⟩, ⟨5, 5⟩, ⟨0, 1⟩] 0 = .ok positions ∧
      positions.Nodup ∧
      positions.Perm (([⟨6, 6⟩, ⟨5, 5⟩, ⟨0, 1⟩] : List MapPoint).filter
        (scanAccepts gridEngine cornerMap [⟨6, 6⟩, ⟨5, 5⟩, ⟨0, 1⟩] 0 5)) ∧
      (∀ p, p ∈ positions ↔ p ∈ ([⟨6, 6⟩, ⟨5, 5⟩, ⟨0, 1⟩] : List MapPoint) ∧
        scanAccepts gridEngine cornerMap [⟨6, 6⟩, ⟨5, 5⟩, ⟨0, 1⟩] 0 5 p = true) ∧
      (∀ p ∈ positions, obstacleRule gridEngine cornerMap [⟨6, 6⟩, ⟨5, 5⟩, ⟨0, 1⟩] p = true ∧
        mountainsInReach gridEngine cornerMap 5 p = true) :=
  ⟨by decide, rfl, by decide,
    FindHqPositions_first_successful_scan gridEngine cornerMap [⟨6, 6⟩, ⟨5, 5⟩, ⟨0, 1⟩] 0 5
      (by decide) (by decide) (by decide) ⟨⟨6, 6⟩, by decide, rfl⟩ (by decide)⟩

/-- The fallback pass alone decides the result when every scan the loop performs is empty: if no
cell of a non-empty area without repeated coordinates passes the scan at any allowed mountain
distance the loop goes through (from minMountainDistance through width+height, and
minMountainDistance itself when it exceeds width+height), then FindHqPositions returns exactly
the cells of the area that meet the obstacle rule, each once, whatever their mountain distance
is, and the empty list when no cell meets the obstacle rule. -/
theorem FindHqPositions_fallback_pass (alg : Algorithms) (map : Map) (area : List MapPoint)
    (playerDistanceToMountains : Nat) (hne : area ≠ []) (hnodup : area.Nodup)
    (hnone : ∀ k,
      k ≤ max (minMountainDistance alg map area playerDistanceToMountains)
        (maxMountainDistance map) →
      minMountainDistance alg map area playerDistanceToMountains ≤ k →
      ∀ p ∈ area, scanAccepts alg map area playerDistanceToMountains k p = false) :
    ∃ positions, FindHqPositions alg map area playerDistanceToMountains = .ok positions ∧
      positions.Nodup ∧
      positions.Perm (area.filter (obstacleRule alg map area)) ∧
      (∀ p, p ∈ positions ↔
        p ∈ area ∧ minObstacleDistance alg map area ≤ obstacleDistance alg map p) ∧
      ((∀ p ∈ area, obstacleDistance alg map p < minObstacleDistance alg map area) →
        positions = []) := by
  have hempty : ∀ k,
      k ≤ max (minMountainDistance alg map area playerDistanceToMountains)
        (maxMountainDistance map) →
      minMountainDistance alg map area playerDistanceToMountains ≤ k →
      area.filter (scanAccepts alg map area playerDistanceToMountains k) = [] := by
    intro k hk1 hk2
    rw [List.filter_eq_nil_iff]
    intro p hp
    rw [hnone k hk1 hk2 p hp]
    decide
  obtain ⟨r, hr, hcase⟩ := FindHqPositions_eq alg map area playerDistanceToMountains hne
  have hreq : r = area.filter (obstacleRule alg map area) := by
    rcases hcase with ⟨d, h1, h2, _, h4, _⟩ | ⟨_, h2⟩
    · exact absurd (hempty d (le_trans (le_of_lt h2) (Nat.le_max_right _ _)) h1) h4
    · rw [h2, hempty _ (le_refl _) (Nat.le_max_left _ _), List.nil_append]
  have hperm : (stdSort (isBetter alg map) r).Perm (area.filter (obstacleRule alg map area)) :=
    hreq ▸ stdSort_perm (isBetter alg map) r
  have hmem : ∀ p, p ∈ stdSort (isBetter alg map) r ↔
      p ∈ area ∧ minObstacleDistance alg map area ≤ obstacleDistance alg map p := by
    intro p
    rw [hperm.mem_iff, List.mem_filter]
    unfold obstacleRule
    rw [decide_eq_true_iff]
  refine ⟨_, hr, hperm.nodup_iff.mpr (hnodup.filter _), hperm, hmem, ?_⟩
  intro hall
  cases hS : stdSort (isBetter alg map) r with
  | nil => rfl
  | cons p ps =>
    have hp := (hmem p).mp (hS ▸ List.mem_cons_self p ps)
    have := hall p hp.1
    omega

theorem FindHqPositions_fallback_pass_witness :
    ([⟨1, 2⟩, ⟨2, 2⟩] : List MapPoint) ≠ [] ∧ ([⟨1, 2⟩, ⟨2, 2⟩] : List MapPoint).Nodup ∧
    minMountainDistance gridEngine ridgeMap [⟨1, 2⟩, ⟨2, 2⟩] 8 = 8 ∧
    maxMountainDistance ridgeMap = 8 ∧
    FindHqPositions gridEngine ridgeMap [⟨1, 2⟩, ⟨2, 2⟩] 8 = .ok [⟨1, 2⟩] ∧
    ∃ positions, FindHqPositions gridEngine ridgeMap [⟨1, 2⟩, ⟨2, 2⟩] 8 = .ok positions ∧
      positions.Nodup ∧
      positions.Perm (([⟨1, 2⟩, ⟨2, 2⟩] : List MapPoint).filter
        (obstacleRule gridEngine ridgeMap [⟨1, 2⟩, ⟨2, 2⟩])) ∧
      (∀ p, p ∈ positions ↔ p ∈ ([⟨1, 2⟩, ⟨2, 2⟩] : List MapPoint) ∧
        minObstacleDistance gridEngine ridgeMap [⟨1, 2⟩, ⟨2, 2⟩]
          ≤ obstacleDistance gridEngine ridgeMap p) ∧
      ((∀ p ∈ ([⟨1, 2⟩, ⟨2, 2⟩] : List MapPoint), obstacleDistance gridEngine ridgeMap p
          < minObstacleDistance gridEngine ridgeMap [⟨1, 2⟩, ⟨2, 2⟩]) →
        positions = []) :=
  ⟨by decide, by decide, rfl, rfl, rfl,
    FindHqPositions_fallback_pass gridEngine ridgeMap [⟨1, 2⟩, ⟨2, 2⟩] 8
      (by decide) (by decide) (by decide)⟩

/-- C14: for a non-empty area FindHqPositions returns a non-empty list if and only if some cell
of the area has obstacle distance at least 2, whatever the mountain distances, the desired
mountain distance and the existing headquarters are; and PlaceHeadquarter throws exactly when
the area is empty or every cell of the area has obstacle distance below 2. -/
theorem FindHqPositions_nonempty_iff_obstacle (alg : Algorithms) (map : Map)
    (area : List MapPoint) (playerDistanceToMountains index : Nat) :
    (area ≠ [] →
      ∃ positions, FindHqPositions alg map area playerDistanceToMountains = .ok positions ∧
        (positions ≠ [] ↔ ∃ p ∈ area, 2 ≤ obstacleDistance alg map p)) ∧
    ((∃ e, (PlaceHeadquarter alg map area playerDistanceToMountains index).1 = .error e) ↔
      (area = [] ∨ ∀ p ∈ area, obstacleDistance alg map p < 2)) := by
  refine ⟨FindHqPositions_ne_nil_iff alg map area playerDistanceToMountains, ?_⟩
  by_cases hne : area = []
  · rw [hne]
    exact ⟨fun _ => Or.inl rfl, fun _ => ⟨_, rfl⟩⟩
  · obtain ⟨positions, hf, hiff⟩ :=
      FindHqPositions_ne_nil_iff alg map area playerDistanceToMountains hne
    unfold PlaceHeadquarter
    rw [hf]
    cases positions with
    | nil =>
      refine ⟨fun _ => Or.inr ?_, fun _ => ⟨_, rfl⟩⟩
      intro p hp
      by_contra hlt
      exact (hiff.mpr ⟨p, hp, by omega⟩) rfl
    | cons front rest =>
      constructor
      · rintro ⟨e, he⟩
        simp at he
      · rintro (h0 | hall)
        · exact absurd h0 hne
        · obtain ⟨p, hp, h2⟩ := hiff.mp (List.cons_ne_nil _ _)
          have := hall p hp
          omega

theorem FindHqPositions_nonempty_iff_obstacle_witness :
    ([⟨0, 1⟩, ⟨1, 1⟩] : List MapPoint) ≠ [] ∧
    FindHqPositions gridEngine cornerMap [⟨0, 1⟩, ⟨1, 1⟩] 3 = .ok [⟨1, 1⟩] ∧
    ∃ positions, FindHqPositions gridEngine cornerMap [⟨0, 1⟩, ⟨1, 1⟩] 3 = .ok positions ∧
      (positions ≠ [] ↔
        ∃ p ∈ ([⟨0, 1⟩, ⟨1, 1⟩] : List MapPoint), 2 ≤ obstacleDistance gridEngine cornerMap p) :=
  ⟨by decide, rfl,
    (FindHqPositions_nonempty_iff_obstacle gridEngine cornerMap [⟨0, 1⟩, ⟨1, 1⟩] 3 1).1
      (by decide)⟩

/-- C15: for every map, non-empty area and desired mountain distance the relaxation loop
terminates, also when no cell of the area is admissible: width+height - allowedMountainDistance
strictly decreases on every iteration that does not break, every iteration budget of at least
width+height - minMountainDistance + 2 gives the same result, and the loop performs at least one
scan, at most width+height - minMountainDistance + 1 scans when minMountainDistance <=
width+height, and exactly one scan otherwise. -/
theorem relaxLoop_terminates (alg : Algorithms) (map : Map) (area : List MapPoint)
    (playerDistanceToMountains : Nat) (h : area ≠ []) :
    ∃ positions scans,
      (∀ extra, relaxLoopScans alg map area playerDistanceToMountains
          (maxMountainDistance map - minMountainDistance alg map area playerDistanceToMountains
            + 2 + extra)
          (minMountainDistance alg map area playerDistanceToMountains) [] 0
        = some (positions, scans)) ∧
      (∀ extra, relaxLoop alg map area playerDistanceToMountains
          (maxMountainDistance map - minMountainDistance alg map area playerDistanceToMountains
            + 2 + extra)
          (minMountainDistance alg map area playerDistanceToMountains) []
        = some positions) ∧
      FindHqPositions alg map area playerDistanceToMountains
        = .ok (stdSort (isBetter alg map) positions) ∧
      1 ≤ scans ∧
      (minMountainDistance alg map area playerDistanceToMountains ≤ maxMountainDistance map →
        scans ≤ maxMountainDistance map
          - minMountainDistance alg map area playerDistanceToMountains + 1) ∧
      (maxMountainDistance map < minMountainDistance alg map area playerDistanceToMountains →
        scans = 1) ∧
      (∀ allowed, allowed < maxMountainDistance map →
        maxMountainDistance map - (allowed + 1) % UINT_SIZE
          < maxMountainDistance map - allowed) := by
  obtain ⟨r, k, hk1, hk2, hrun⟩ := relaxLoopScans_spec alg map area playerDistanceToMountains
    (maxMountainDistance map - minMountainDistance alg map area playerDistanceToMountains)
    (minMountainDistance alg map area playerDistanceToMountains) 0 rfl
  rw [Nat.zero_add] at hrun
  have hloop : ∀ extra, relaxLoop alg map area playerDistanceToMountains
      (maxMountainDistance map - minMountainDistance alg map area playerDistanceToMountains
        + 2 + extra)
      (minMountainDistance alg map area playerDistanceToMountains) [] = some r := by
    intro extra
    rw [← relaxLoopScans_fst alg map area playerDistanceToMountains _ _ _ 0, hrun extra]
    rfl
  refine ⟨r, k, hrun, hloop, ?_, hk1, fun _ => hk2, ?_, ?_⟩
  · have hne : area.isEmpty = false := by
      cases area with
      | nil => exact absurd rfl h
      | cons p ps => rfl
    have h0 := hloop 0
    rw [Nat.add_zero] at h0
    unfold FindHqPositions
    rw [hne, h0]
    rfl
  · intro hlt
    have : maxMountainDistance map
        - minMountainDistance alg map area playerDistanceToMountains = 0 := by omega
    omega
  · intro allowed hlt
    have hU := maxMountainDistance_lt map
    have hmod : (allowed + 1) % UINT_SIZE = allowed + 1 := Nat.mod_eq_of_lt (by omega)
    rw [hmod]
    omega

theorem relaxLoop_terminates_witness :
    ([⟨0, 1⟩, ⟨1, 0⟩] : List MapPoint) ≠ [] ∧
    minMountainDistance gridEngine smallMap [⟨0, 1⟩, ⟨1, 0⟩] 0 = 5 ∧
    maxMountainDistance smallMap = 8 ∧
    relaxLoopScans gridEngine smallMap [⟨0, 1⟩, ⟨1, 0⟩] 0 5 5 [] 0 = some ([], 4) ∧
    ∃ positions scans,
      (∀ extra, relaxLoopScans gridEngine smallMap [⟨0, 1⟩, ⟨1, 0⟩] 0
          (maxMountainDistance smallMap
            - minMountainDistance gridEngine smallMap [⟨0, 1⟩, ⟨1, 0⟩] 0 + 2 + extra)
          (minMountainDistance gridEngine smallMap [⟨0, 1⟩, ⟨1, 0⟩] 0) [] 0
        = some (positions, scans)) ∧
      (∀ extra, relaxLoop gridEngine smallMap [⟨0, 1⟩, ⟨1, 0⟩] 0
          (maxMountainDistance smallMap
            - minMountainDistance gridEngine smallMap [⟨0, 1⟩, ⟨1, 0⟩] 0 + 2 + extra)
          (minMountainDistance gridEngine smallMap [⟨0, 1⟩, ⟨1, 0⟩] 0) []
        = some positions) ∧
      FindHqPositions gridEngine smallMap [⟨0, 1⟩, ⟨1, 0⟩] 0
        = .ok (stdSort (isBetter gridEngine smallMap) positions) ∧
      1 ≤ scans ∧
      (minMountainDistance gridEngine smallMap [⟨0, 1⟩, ⟨1, 0⟩] 0 ≤ maxMountainDistance smallMap →
        scans ≤ maxMountainDistance smallMap
          - minMountainDistance gridEngine smallMap [⟨0, 1⟩, ⟨1, 0⟩] 0 + 1) ∧
      (maxMountainDistance smallMap < minMountainDistance gridEngine smallMap [⟨0, 1⟩, ⟨1, 0⟩] 0 →
        scans = 1) ∧
      (∀ allowed, allowed < maxMountainDistance smallMap →
        maxMountainDistance smallMap - (allowed + 1) % UINT_SIZE
          < maxMountainDistance smallMap - allowed) :=
  ⟨by decide, rfl, rfl, rfl,
    relaxLoop_terminates gridEngine smallMap [⟨0, 1⟩, ⟨1, 0⟩] 0 (by decide)⟩

/-- C12: on the 8 x 8 map without mountains minMountainDistance is 17 and width+height is 16, so
no allowed mountain distance lies between them and no cell passes a scan at one; the area
[(0, 1), (1, 1), (2, 2)] has no repeated coordinate and exactly (2, 2) meets the obstacle rule.
The code returns (2, 2) twice: the single scan, run with the mountain criterion dropped, accepts
it and the pass that ignores the mountain band appends it again. -/
theorem FindHqPositions_fallback_repeats_cells :
    ([⟨0, 1⟩, ⟨1, 1⟩, ⟨2, 2⟩] : List MapPoint).Nodup ∧
      minMountainDistance gridEngine plainMap [⟨0, 1⟩, ⟨1, 1⟩, ⟨2, 2⟩] 3 = 17 ∧
      maxMountainDistance plainMap = 16 ∧
      (∀ k, minMountainDistance gridEngine plainMap [⟨0, 1⟩, ⟨1, 1⟩, ⟨2, 2⟩] 3 ≤ k →
        k ≤ maxMountainDistance plainMap →
        ∀ p ∈ ([⟨0, 1⟩, ⟨1, 1⟩, ⟨2, 2⟩] : List MapPoint),
          scanAccepts gridEngine plainMap [⟨0, 1⟩, ⟨1, 1⟩, ⟨2, 2⟩] 3 k p = false) ∧
      ([⟨0, 1⟩, ⟨1, 1⟩, ⟨2, 2⟩] : List MapPoint).filter
          (obstacleRule gridEngine plainMap [⟨0, 1⟩, ⟨1, 1⟩, ⟨2, 2⟩]) = [⟨2, 2⟩] ∧
      FindHqPositions gridEngine plainMap [⟨0, 1⟩, ⟨1, 1⟩, ⟨2, 2⟩] 3
        = .ok [⟨2, 2⟩, ⟨2, 2⟩] ∧
      ¬ ([⟨2, 2⟩, ⟨2, 2⟩] : List MapPoint).Nodup ∧
      ¬ ([⟨2, 2⟩, ⟨2, 2⟩] : List MapPoint).Perm
          (([⟨0, 1⟩, ⟨1, 1⟩, ⟨2, 2⟩] : List MapPoint).filter
            (obstacleRule gridEngine plainMap [⟨0, 1⟩, ⟨1, 1⟩, ⟨2, 2⟩])) := by
  have hmin : minMountainDistance gridEngine plainMap [⟨0, 1⟩, ⟨1, 1⟩, ⟨2, 2⟩] 3 = 17 := rfl
  have hmax : maxMountainDistance plainMap = 16 := rfl
  have hfilter : ([⟨0, 1⟩, ⟨1, 1⟩, ⟨2, 2⟩] : List MapPoint).filter
      (obstacleRule gridEngine plainMap [⟨0, 1⟩, ⟨1, 1⟩, ⟨2, 2⟩]) = [⟨2, 2⟩] := rfl
  refine ⟨by decide, hmin, hmax, ?_, hfilter, rfl, by decide, ?_⟩
  · intro k h1 h2
    rw [hmin] at h1
    rw [hmax] at h2
    omega
  · rw [hfilter]
    intro hperm
    have := hperm.length_eq
    simp at this

end rttr.mapGenerator
